import Mathlib

/-!
Verification development for the recallapp storage core
(`recall_core/storage/models.py`, `conversation.py`, `vector.py`).

Modelling conventions, chosen once and used throughout:
* `datetime` values are modelled as integer timestamps (`Timestamp := Int`);
  Python's `datetime.isoformat` is strictly monotone in the datetime, so the
  SQL text comparisons on the stored ISO strings order exactly like the
  timestamps themselves.
* open `dict[str, Any]` mappings (message `tool_calls` entries, `extra`) are
  modelled as association lists of strings; their JSON round-trip through
  `json.dumps` / `json.loads` and pydantic serialization is taken as faithful.
* a store's on-disk / in-table state is an explicit value; every Python
  method becomes a pure function from state (plus arguments) to state and
  return value.
* floats are modelled as rationals (`ℚ`); the engine's distance metric (the
  spec treats it as an opaque non-negative "smaller is closer" scalar, e.g.
  L2) is modelled as squared Euclidean distance over `ℚ`.
-/

namespace RecallApp

/-- Model of `datetime`: an integer timestamp; ordering mirrors datetime
ordering (and the ordering of the ISO strings stored in SQLite). -/
abbrev Timestamp := Int

/-- Model of an open `dict[str, Any]` mapping as string key/value pairs. -/
abbrev ExtraMap := List (String × String)

/-- Model of `Message` from `storage/models.py`: role, content, optional timestamp and
the ordered list of tool-call records (each an open mapping). -/
structure Message where
  role : String
  content : String
  timestamp : Option Timestamp
  tool_calls : List ExtraMap
deriving Repr, DecidableEq

/-- Model of `Conversation` from `storage/models.py`. -/
structure Conversation where
  id : String
  source : String
  project_path : Option String
  created_at : Timestamp
  updated_at : Timestamp
  messages : List Message
  indexed_at : Option Timestamp
  title : Option String
  extra : ExtraMap
deriving Repr, DecidableEq

/-- One row of the SQLite `conversations` index table
(`conversation.py`, `_ensure_initialized`). -/
structure IndexRow where
  id : String
  source : String
  project_path : Option String
  created_at : Timestamp
  updated_at : Timestamp
  indexed_at : Option Timestamp
  title : Option String
  message_count : Nat
deriving Repr, DecidableEq

/-- The index row `ConversationStore.save` writes for a conversation
(the VALUES tuple of the INSERT OR REPLACE in `save`). -/
def metaOf (c : Conversation) : IndexRow :=
  { id := c.id
    source := c.source
    project_path := c.project_path
    created_at := c.created_at
    updated_at := c.updated_at
    indexed_at := c.indexed_at
    title := c.title
    message_count := c.messages.length }

/-- State of a `ConversationStore`: the sharded JSON files and the SQLite
index.  A file lives at `conversations/<shard>/<id>.json`; that path is
injective in the id, so files are keyed here by the conversation id. -/
structure ConvStore where
  files : List (String × Conversation)
  index : List IndexRow
deriving Repr, DecidableEq

/-- Reading the content file for an id (`path.read_text` +
`model_validate_json`, with pydantic serialization taken as faithful). -/
def lookupFile (files : List (String × Conversation)) (id : String) :
    Option Conversation :=
  (files.find? (fun p => p.1 == id)).map (fun p => p.2)

/-- Generic insert-or-replace by string key: if some element already has the
new element's key the stored elements with that key are overwritten in place,
otherwise the element is appended.  Models both the atomic file overwrite
(`temp_path.rename`) and SQLite's INSERT OR REPLACE. -/
def upsertBy {α : Type} (key : α → String) (x : α) (l : List α) : List α :=
  if l.any (fun a => key a == key x) then
    l.map (fun a => if key a == key x then x else a)
  else
    l ++ [x]

/-- Model of `ConversationStore.save`: write the full record to its shard file, then
upsert the metadata row built from the conversation. -/
def saveConv (st : ConvStore) (c : Conversation) : ConvStore :=
  { files := upsertBy Prod.fst (c.id, c) st.files
    index := upsertBy IndexRow.id (metaOf c) st.index }

/-- Model of `ConversationStore.get`: read the content file directly, bypassing the
index; not-found exactly when the shard file is absent. -/
def getConv (st : ConvStore) (id : String) : Option Conversation :=
  lookupFile st.files id

/-- Model of `ConversationStore.delete`: unlink the shard file if present, delete the
index row unconditionally, return whether the file existed. -/
def deleteConv (st : ConvStore) (id : String) : ConvStore × Bool :=
  ({ files := st.files.filter (fun p => !(p.1 == id))
     index := st.index.filter (fun r => !(r.id == id)) },
   (st.files.find? (fun p => p.1 == id)).isSome)

/-- Descending order on `updated_at` (the ORDER BY updated_at DESC of
`list_all` / `list_by_project`). -/
def updGE (a b : IndexRow) : Prop := b.updated_at ≤ a.updated_at

instance : DecidableRel updGE := fun a b =>
  inferInstanceAs (Decidable (b.updated_at ≤ a.updated_at))

instance : IsTotal IndexRow updGE :=
  ⟨fun a b => le_total b.updated_at a.updated_at⟩

instance : IsTrans IndexRow updGE :=
  ⟨fun _ _ _ h1 h2 => le_trans h2 h1⟩

/-- Descending order on `created_at` (the ORDER BY created_at DESC of
`list_by_date_range`). -/
def crGE (a b : IndexRow) : Prop := b.created_at ≤ a.created_at

instance : DecidableRel crGE := fun a b =>
  inferInstanceAs (Decidable (b.created_at ≤ a.created_at))

instance : IsTotal IndexRow crGE :=
  ⟨fun a b => le_total b.created_at a.created_at⟩

instance : IsTrans IndexRow crGE :=
  ⟨fun _ _ _ h1 h2 => le_trans h2 h1⟩

/-- Hydration step shared by every list operation: each id coming back from
the index query is read from its file with `get`; missing files are silently
skipped (`if conv: conversations.append(conv)`). -/
def hydrate (st : ConvStore) (rows : List IndexRow) : List Conversation :=
  rows.filterMap (fun r => getConv st r.id)

/-- Model of `ConversationStore.list_all`: index ids ordered by `updated_at`
descending, paginated with OFFSET then LIMIT, then hydrated from files. -/
def listAll (st : ConvStore) (limit offset : Nat) : List Conversation :=
  hydrate st (((List.insertionSort updGE st.index).drop offset).take limit)

/-- The WHERE clause of `list_by_date_range` on one index row: inclusive
bounds on `created_at` and, through `srcMatch`, the optional source filter.
Python's `if source:` drops the filter both for `None` and for `""`. -/
def srcMatch (source : Option String) (s : String) : Bool :=
  match source with
  | none => true
  | some t => if t == "" then true else s == t

/-- Row predicate of `list_by_date_range`. -/
def dateRowMatch (start end_ : Timestamp) (source : Option String)
    (r : IndexRow) : Bool :=
  decide (start ≤ r.created_at) && decide (r.created_at ≤ end_) &&
    srcMatch source r.source

/-- Model of `ConversationStore.list_by_date_range`: filter, order by `created_at`
descending, LIMIT, hydrate. -/
def listByDateRange (st : ConvStore) (start end_ : Timestamp)
    (source : Option String) (limit : Nat) : List Conversation :=
  hydrate st
    ((List.insertionSort crGE
        (st.index.filter (dateRowMatch start end_ source))).take limit)

/-- The first step of `mark_indexed`: the SQL UPDATE that sets `indexed_at`
on the index row(s) with the given id, touching nothing else. -/
def updateIndexedRow (st : ConvStore) (id : String) (now : Timestamp) :
    ConvStore :=
  { st with
    index := st.index.map
      (fun r => if r.id == id then { r with indexed_at := some now } else r) }

/-- Model of `ConversationStore.mark_indexed`: UPDATE the index row's `indexed_at`,
then re-read the conversation from its file and, if found, save it with
`indexed_at` set (which rewrites both the file and the index row).  `now`
stands for the passed timestamp, or the current time when omitted. -/
def markIndexed (st : ConvStore) (id : String) (now : Timestamp) : ConvStore :=
  match getConv (updateIndexedRow st id now) id with
  | some c => saveConv (updateIndexedRow st id now) { c with indexed_at := some now }
  | none => updateIndexedRow st id now

/-- Return value of `ConversationStore.get_stats`. -/
structure Stats where
  total_conversations : Nat
  indexed_conversations : Nat
  unique_projects : Nat
deriving Repr, DecidableEq

/-- Model of `ConversationStore.get_stats`: COUNT(*), COUNT of non-null `indexed_at`,
COUNT(DISTINCT project_path) — SQL DISTINCT counts ignore NULL. -/
def getStats (st : ConvStore) : Stats :=
  { total_conversations := st.index.length
    indexed_conversations :=
      (st.index.filter (fun r => r.indexed_at.isSome)).length
    unique_projects :=
      ((st.index.filterMap (fun r => r.project_path)).dedup).length }

/-- Model of `DocumentMetadata` from `storage/models.py`. -/
structure DocumentMetadata where
  source : String
  project_path : Option String
  conversation_id : Option String
  chunk_index : Int
  created_at : Timestamp
  extra : ExtraMap
deriving Repr, DecidableEq

/-- Model of `Document` from `storage/models.py`.  Its `embedding` field is excluded
from serialization and never stored on the document record, so it is not
part of the model. -/
structure Document where
  id : String
  text : String
  metadata : DocumentMetadata
deriving Repr, DecidableEq

/-- One row of the LanceDB `documents` table (`vector.py`,
`_ensure_connected`).  `project_path` and `conversation_id` are non-null
columns: a missing value is stored as `""` (`document.metadata.x or ""`). -/
structure VecRow where
  id : String
  text : String
  vector : List ℚ
  source : String
  project_path : String
  conversation_id : String
  chunk_index : Int
  created_at : Timestamp
  extra : ExtraMap
deriving Repr, DecidableEq

/-- State of a `VectorStore`: the rows of its single `documents` table. -/
structure VecStore where
  rows : List VecRow
deriving Repr, DecidableEq

/-- The row `VectorStore.add` writes for a document and embedding: `None`
values of `project_path` / `conversation_id` become `""`. -/
def rowOfDoc (d : Document) (emb : List ℚ) : VecRow :=
  { id := d.id
    text := d.text
    vector := emb
    source := d.metadata.source
    project_path := d.metadata.project_path.getD ""
    conversation_id := d.metadata.conversation_id.getD ""
    chunk_index := d.metadata.chunk_index
    created_at := d.metadata.created_at
    extra := d.metadata.extra }

/-- Read-side conversion `row["x"] or None`: the empty string comes back as
a missing value. -/
def strOrNone (s : String) : Option String :=
  if s == "" then none else some s

/-- Rebuilding a `Document` from a stored row (the row-to-model conversion
shared by `VectorStore.search` and `VectorStore.get`). -/
def docOfRow (r : VecRow) : Document :=
  { id := r.id
    text := r.text
    metadata :=
      { source := r.source
        project_path := strOrNone r.project_path
        conversation_id := strOrNone r.conversation_id
        chunk_index := r.chunk_index
        created_at := r.created_at
        extra := r.extra } }

/-- Model of `VectorStore.add`: upsert by id via `merge_insert("id")` — a matching
row is replaced in place, otherwise the row is inserted. -/
def VecStore.add (st : VecStore) (d : Document) (emb : List ℚ) : VecStore :=
  { rows := upsertBy VecRow.id (rowOfDoc d emb) st.rows }

/-- Squared Euclidean distance, the model of the engine's non-negative
"smaller is closer" metric (spec §4.2 numeric semantics). -/
def sqDist (a b : List ℚ) : ℚ :=
  (List.zipWith (fun x y => (x - y) ^ 2) a b).sum

/-- Model of `SearchResult` from `storage/models.py` (floats as rationals). -/
structure SearchResult where
  document : Document
  score : ℚ
  distance : ℚ
deriving Repr, DecidableEq

/-- The `SearchResult` built for one returned row: the rebuilt document, the
row's distance from the query, and `score = 1 / (1 + distance)`. -/
def mkResult (emb : List ℚ) (r : VecRow) : SearchResult :=
  { document := docOfRow r
    score := 1 / (1 + sqDist emb r.vector)
    distance := sqDist emb r.vector }

/-- Ascending order on distance from the query embedding (nearest first). -/
def distLE (emb : List ℚ) (a b : VecRow) : Prop :=
  sqDist emb a.vector ≤ sqDist emb b.vector

instance (emb : List ℚ) : DecidableRel (distLE emb) := fun a b =>
  inferInstanceAs (Decidable (sqDist emb a.vector ≤ sqDist emb b.vector))

instance (emb : List ℚ) : IsTotal VecRow (distLE emb) :=
  ⟨fun a b => le_total (sqDist emb a.vector) (sqDist emb b.vector)⟩

instance (emb : List ℚ) : IsTrans VecRow (distLE emb) :=
  ⟨fun _ _ _ h1 h2 => le_trans h1 h2⟩

/-- The rows a search ranks over: all rows, or — when a filter expression is
given — the rows satisfying it.  Per spec §4.2 the engine evaluates
`filter_expr` (an opaque predicate over the stored columns) before ranking. -/
def searchPool (st : VecStore) (flt : Option (VecRow → Bool)) : List VecRow :=
  match flt with
  | some φ => st.rows.filter φ
  | none => st.rows

/-- Model of `VectorStore.search`: rank the (possibly filtered) rows by ascending
distance, keep at most `limit`, convert each to a `SearchResult`. -/
def VecStore.search (st : VecStore) (emb : List ℚ) (limit : Nat)
    (flt : Option (VecRow → Bool)) : List SearchResult :=
  ((List.insertionSort (distLE emb) (searchPool st flt)).take limit).map
    (mkResult emb)

/-- Model of `VectorStore.get`: point lookup by exact id (`where id = ... limit 1`). -/
def VecStore.get (st : VecStore) (id : String) : Option Document :=
  (st.rows.find? (fun r => r.id == id)).map docOfRow

/-- Model of `VectorStore.delete`: delete rows whose id matches; the return value is
the constant `true` (the engine's delete reports no status). -/
def VecStore.delete (st : VecStore) (id : String) : VecStore × Bool :=
  ({ rows := st.rows.filter (fun r => !(r.id == id)) }, true)

/-- Model of `VectorStore.delete_by_conversation`: count the rows matching the
conversation id (the query run before the delete), then delete them,
returning that pre-delete count. -/
def VecStore.deleteByConversation (st : VecStore) (cid : String) :
    VecStore × Nat :=
  ({ rows := st.rows.filter (fun r => !(r.conversation_id == cid)) },
   (st.rows.filter (fun r => r.conversation_id == cid)).length)

/-- Well-formed `ConvStore` state: file keys are unique, every file stores a
conversation whose `id` field names the file, and the index rows are exactly
the metadata rows of the stored files (`save` maintains this; a crash
between the two steps of `save` can break it, which the spec calls out as a
known gap). -/
def WF (st : ConvStore) : Prop :=
  (st.files.map Prod.fst).Nodup ∧
  (∀ p ∈ st.files, p.2.id = p.1) ∧
  st.index.Perm (st.files.map (fun p => metaOf p.2))

instance (st : ConvStore) : Decidable (WF st) :=
  inferInstanceAs (Decidable (_ ∧ _ ∧ _))

/-- Concrete conversation used to exercise the model on closed inputs. -/
def exConv : Conversation :=
  { id := "ab", source := "claude_code", project_path := none, created_at := 0,
    updated_at := 0, messages := [], indexed_at := none, title := none,
    extra := [] }

/-- Concrete one-conversation store state. -/
def exStore : ConvStore :=
  { files := [("ab", exConv)], index := [metaOf exConv] }

/-- Three conversations with distinct ids and update times, for exercising
pagination on a closed input. -/
def pagConv (id : String) (t : Timestamp) : Conversation :=
  { id := id, source := "claude_code", project_path := none, created_at := t,
    updated_at := t, messages := [], indexed_at := none, title := none,
    extra := [] }

/-- Concrete three-conversation store state. -/
def pagStore : ConvStore :=
  { files := [("aa", pagConv "aa" 1), ("bb", pagConv "bb" 2),
              ("cc", pagConv "cc" 3)]
    index := [metaOf (pagConv "aa" 1), metaOf (pagConv "bb" 2),
              metaOf (pagConv "cc" 3)] }

/-- Concrete vector-store row. -/
def exRow : VecRow :=
  { id := "d1", text := "hello", vector := [0], source := "claude_code",
    project_path := "", conversation_id := "A", chunk_index := 0,
    created_at := 0, extra := [] }

/-- Concrete one-row vector store. -/
def exVecStore : VecStore := { rows := [exRow] }

/-- Concrete document whose `project_path` is the empty string. -/
def exDoc : Document :=
  { id := "d2", text := "doc",
    metadata := { source := "claude_code", project_path := some "",
                  conversation_id := none, chunk_index := 0, created_at := 0,
                  extra := [] } }

/-! ### Helper lemmas about keyed upserts and lookups -/

/-- Replacing every element whose key matches the new element's key, then
searching for that key, finds the new element exactly when some element
matched. -/
theorem find?_replace_same {α : Type} (key : α → String) (x : α) :
    ∀ l : List α,
      (l.map (fun a => if key a == key x then x else a)).find?
          (fun a => key a == key x) =
        if l.any (fun a => key a == key x) then some x else none := by
  intro l
  induction l with
  | nil => rfl
  | cons a t ih =>
    rw [List.map_cons, List.any_cons]
    by_cases ha : (key a == key x) = true
    · rw [if_pos ha,
        @List.find?_cons_of_pos _ (fun a => key a == key x) x _
          (beq_self_eq_true (key x)),
        ha, Bool.true_or, if_pos rfl]
    · have ha' : (key a == key x) = false := by simpa using ha
      rw [if_neg ha]
      simp only [List.find?_cons, ha', Bool.false_or]
      exact ih

/-- Replacing elements matching the new element's key does not change a
search for a different key. -/
theorem find?_replace_other {α : Type} (key : α → String) (x : α)
    (k : String) (hk : (key x == k) = false) :
    ∀ l : List α,
      (l.map (fun a => if key a == key x then x else a)).find?
          (fun a => key a == k) =
        l.find? (fun a => key a == k) := by
  intro l
  induction l with
  | nil => rfl
  | cons a t ih =>
    rw [List.map_cons]
    by_cases ha : (key a == key x) = true
    · have hak : (key a == k) = false := by
        rw [beq_iff_eq.mp ha]; exact hk
      rw [if_pos ha]
      simp only [List.find?_cons, hk, hak]
      exact ih
    · rw [if_neg ha]
      simp only [List.find?_cons]
      cases hpa : (key a == k) with
      | true => rfl
      | false => exact ih

/-- Finding the upserted element by its own key always succeeds. -/
theorem find?_upsertBy_self {α : Type} (key : α → String) (x : α)
    (l : List α) :
    (upsertBy key x l).find? (fun a => key a == key x) = some x := by
  unfold upsertBy
  by_cases hany : l.any (fun a => key a == key x) = true
  · rw [if_pos hany, find?_replace_same, if_pos hany]
  · have hany' := Bool.eq_false_iff.mpr hany
    rw [if_neg hany, List.find?_append,
      List.find?_eq_none.mpr
        (fun a hal => by
          have := List.any_eq_false.mp hany' a hal
          simpa using this),
      Option.none_or, List.find?_singleton, if_pos (beq_self_eq_true (key x))]

/-- Finding by a key different from the upserted element's key is unchanged
by the upsert. -/
theorem find?_upsertBy_other {α : Type} (key : α → String) (x : α)
    (l : List α) (k : String) (hk : (key x == k) = false) :
    (upsertBy key x l).find? (fun a => key a == k) =
      l.find? (fun a => key a == k) := by
  unfold upsertBy
  by_cases hany : l.any (fun a => key a == key x) = true
  · rw [if_pos hany, find?_replace_other key x k hk]
  · rw [if_neg hany, List.find?_append, List.find?_singleton, if_neg (by simp [hk]),
      Option.or_none]

/-- In a list with pairwise-distinct keys, searching for the key of a member
finds that member. -/
theorem find?_key_of_mem_nodup {α : Type} (key : α → String) {l : List α}
    (hnd : (l.map key).Nodup) {x : α} (hx : x ∈ l) :
    l.find? (fun a => key a == key x) = some x := by
  induction l with
  | nil => exact absurd hx (List.not_mem_nil x)
  | cons a t ih =>
    rcases List.mem_cons.mp hx with rfl | hxt
    · exact List.find?_cons_of_pos t (beq_self_eq_true (key x))
    · have hnd' := hnd
      rw [List.map_cons, List.nodup_cons] at hnd'
      have hax : (key a == key x) = false := by
        apply Bool.eq_false_iff.mpr
        intro hcon
        exact hnd'.1 (beq_iff_eq.mp hcon ▸ List.mem_map_of_mem key hxt)
      rw [List.find?_cons_of_neg t (by simp [hax])]
      exact ih hnd'.2 hxt

/-- Splitting a filtered list's length: kept plus dropped is the total. -/
theorem length_filter_not_add {α : Type} (p : α → Bool) (l : List α) :
    (l.filter (fun a => !(p a))).length + (l.filter p).length = l.length := by
  induction l with
  | nil => rfl
  | cons a t ih =>
    cases hpa : p a with
    | true => simp [List.filter_cons, hpa, ← ih]; omega
    | false => simp [List.filter_cons, hpa, ← ih]; omega

/-- Pairwise order transfers through `filterMap` along a correspondence
between inputs and their extracted values. -/
theorem pairwise_filterMap_of_mem {α β : Type} (f : α → Option β)
    {R : α → α → Prop} {S : β → β → Prop} :
    ∀ l : List α,
      (∀ a ∈ l, ∀ b ∈ l, ∀ x y, f a = some x → f b = some y → R a b → S x y) →
      l.Pairwise R → (l.filterMap f).Pairwise S := by
  intro l
  induction l with
  | nil => intro _ _; exact List.Pairwise.nil
  | cons a t ih =>
    intro hcorr hpw
    rw [List.filterMap_cons]
    rcases hpw with - | ⟨hhead, htail⟩
    cases hfa : f a with
    | none =>
      exact ih
        (fun b hb c hc => hcorr b (List.mem_cons_of_mem a hb)
          c (List.mem_cons_of_mem a hc)) htail
    | some x =>
      refine List.Pairwise.cons ?_
        (ih (fun b hb c hc => hcorr b (List.mem_cons_of_mem a hb)
          c (List.mem_cons_of_mem a hc)) htail)
      intro y hy
      rcases List.mem_filterMap.mp hy with ⟨b, hb, hfb⟩
      exact hcorr a (List.mem_cons_self a t) b (List.mem_cons_of_mem a hb)
        x y hfa hfb (hhead b hb)

/-- A `filterMap` whose function is total on the list is a `map`. -/
theorem filterMap_congr_some {α β : Type} (f : α → Option β) (g : α → β) :
    ∀ l : List α, (∀ a ∈ l, f a = some (g a)) → l.filterMap f = l.map g := by
  intro l
  induction l with
  | nil => intro _; rfl
  | cons a t ih =>
    intro h
    rw [List.filterMap_cons, h a (List.mem_cons_self a t), List.map_cons,
      ih (fun b hb => h b (List.mem_cons_of_mem a hb))]

/-- A `filterMap` that succeeds on every element preserves length. -/
theorem length_filterMap_of_isSome {α β : Type} (f : α → Option β) :
    ∀ l : List α, (∀ a ∈ l, (f a).isSome) →
      (l.filterMap f).length = l.length := by
  intro l
  induction l with
  | nil => intro _; rfl
  | cons a t ih =>
    intro h
    rcases Option.isSome_iff_exists.mp (h a (List.mem_cons_self a t)) with ⟨x, hx⟩
    rw [List.filterMap_cons, hx, List.length_cons,
      ih (fun b hb => h b (List.mem_cons_of_mem a hb))]
    rfl

/-! ### Consequences of store well-formedness -/

/-- A successful `get` comes from a stored file entry under that id. -/
theorem getConv_mem_files {st : ConvStore} {id : String} {c : Conversation}
    (h : getConv st id = some c) : (id, c) ∈ st.files := by
  unfold getConv lookupFile at h
  rcases Option.map_eq_some'.mp h with ⟨p, hp, rfl⟩
  have hmem := List.mem_of_find?_eq_some hp
  have hkey : p.1 = id := by simpa using List.find?_some hp
  rw [← hkey, Prod.mk.eta]
  exact hmem

/-- In a well-formed store the stored conversation's `id` field names its
file. -/
theorem WF.getConv_id {st : ConvStore} (h : WF st) {id : String}
    {c : Conversation} (hc : getConv st id = some c) : c.id = id :=
  h.2.1 (id, c) (getConv_mem_files hc)

/-- In a well-formed store every file entry is found by `get`. -/
theorem WF.getConv_of_mem_files {st : ConvStore} (h : WF st)
    {k : String} {c : Conversation} (hm : (k, c) ∈ st.files) :
    getConv st k = some c := by
  unfold getConv lookupFile
  have := find?_key_of_mem_nodup Prod.fst h.1 hm
  rw [this]
  rfl

/-- In a well-formed store every file entry has its metadata row in the
index. -/
theorem WF.metaOf_mem_index {st : ConvStore} (h : WF st)
    {k : String} {c : Conversation} (hm : (k, c) ∈ st.files) :
    metaOf c ∈ st.index := by
  refine h.2.2.mem_iff.mpr ?_
  exact List.mem_map.mpr ⟨(k, c), hm, rfl⟩

/-- In a well-formed store the ids of the index rows are pairwise
distinct. -/
theorem WF.index_ids_nodup {st : ConvStore} (h : WF st) :
    (st.index.map IndexRow.id).Nodup := by
  have hperm : (st.index.map IndexRow.id).Perm
      ((st.files.map (fun p => metaOf p.2)).map IndexRow.id) :=
    h.2.2.map IndexRow.id
  rw [hperm.nodup_iff, List.map_map]
  have heq : st.files.map
        (IndexRow.id ∘ fun p : String × Conversation => metaOf p.2)
      = st.files.map Prod.fst :=
    List.map_congr_left (fun p hp => h.2.1 p hp)
  rw [heq]
  exact h.1

/-- In a well-formed store every index row hydrates: its file exists and
stores a conversation whose metadata is the row. -/
theorem WF.hydrate_row {st : ConvStore} (h : WF st) {r : IndexRow}
    (hr : r ∈ st.index) : ∃ c, getConv st r.id = some c ∧ metaOf c = r := by
  have hr' := h.2.2.mem_iff.mp hr
  rcases List.mem_map.mp hr' with ⟨p, hp, hmeta⟩
  refine ⟨p.2, ?_, hmeta⟩
  have hid : r.id = p.1 := by rw [← hmeta]; exact h.2.1 p hp
  rw [hid]
  exact h.getConv_of_mem_files (by rw [Prod.mk.eta]; exact hp)

/-- In a well-formed store, a row of the index and a conversation read back
for that row's id agree field-for-field. -/
theorem WF.row_of_getConv {st : ConvStore} (h : WF st) {r : IndexRow}
    {c : Conversation} (hr : r ∈ st.index) (hc : getConv st r.id = some c) :
    metaOf c = r := by
  rcases h.hydrate_row hr with ⟨c1, hc1, hmeta⟩
  rw [hc1] at hc
  rw [← hmeta, Option.some_inj.mp hc]

/-- The upserted element is in the upserted list. -/
theorem self_mem_upsertBy {α : Type} (key : α → String) (x : α)
    (l : List α) : x ∈ upsertBy key x l := by
  unfold upsertBy
  by_cases hany : l.any (fun a => key a == key x) = true
  · rw [if_pos hany]
    rcases List.any_eq_true.mp hany with ⟨b, hb, hpb⟩
    exact List.mem_map.mpr ⟨b, hb, by rw [if_pos hpb]⟩
  · rw [if_neg hany]
    exact List.mem_append.mpr (Or.inr (List.mem_singleton.mpr rfl))

/-- Every element of an upserted list is the new element or an untouched
old element with a different key. -/
theorem mem_upsertBy {α : Type} (key : α → String) (x : α) (l : List α)
    {y : α} (hy : y ∈ upsertBy key x l) :
    y = x ∨ (y ∈ l ∧ (key y == key x) = false) := by
  unfold upsertBy at hy
  by_cases hany : l.any (fun a => key a == key x) = true
  · rw [if_pos hany] at hy
    rcases List.mem_map.mp hy with ⟨a, ha, hfa⟩
    by_cases hka : (key a == key x) = true
    · left
      rw [← hfa, if_pos hka]
    · right
      rw [← hfa, if_neg hka]
      exact ⟨ha, by simpa using hka⟩
  · rw [if_neg hany] at hy
    rcases List.mem_append.mp hy with hyl | hyx
    · right
      refine ⟨hyl, ?_⟩
      have hall := List.any_eq_false.mp (Bool.eq_false_iff.mpr hany) y hyl
      simpa using hall
    · left
      exact List.mem_singleton.mp hyx

/-- Old elements with a different key survive an upsert. -/
theorem mem_upsertBy_of_mem {α : Type} (key : α → String) (x : α)
    (l : List α) {y : α} (hy : y ∈ l) (hk : (key y == key x) = false) :
    y ∈ upsertBy key x l := by
  unfold upsertBy
  by_cases hany : l.any (fun a => key a == key x) = true
  · rw [if_pos hany]
    exact List.mem_map.mpr ⟨y, hy, by rw [if_neg (by simp [hk])]⟩
  · rw [if_neg hany]
    exact List.mem_append.mpr (Or.inl hy)

/-- Looking a key up after a file upsert: the saved conversation's id finds
the saved conversation, any other key is untouched. -/
theorem lookupFile_upsert (fs : List (String × Conversation))
    (c : Conversation) (k : String) :
    lookupFile (upsertBy Prod.fst (c.id, c) fs) k =
      if c.id = k then some c else lookupFile fs k := by
  unfold lookupFile
  by_cases hk : c.id = k
  · rw [if_pos hk]
    subst hk
    rw [find?_upsertBy_self Prod.fst (c.id, c) fs]
    rfl
  · rw [if_neg hk,
      find?_upsertBy_other Prod.fst (c.id, c) fs k (by simpa using hk)]

/-- Squared Euclidean distance is non-negative. -/
theorem sqDist_nonneg : ∀ a b : List ℚ, 0 ≤ sqDist a b
  | [], _ => le_refl 0
  | _ :: _, [] => le_refl 0
  | x :: a, y :: b => by
    have ih := sqDist_nonneg a b
    unfold sqDist at ih ⊢
    rw [List.zipWith_cons_cons, List.sum_cons]
    have h2 : 0 ≤ (x - y) ^ 2 := sq_nonneg _
    linarith

/-- The read-side conversion never produces an empty-string value. -/
theorem strOrNone_ne_some_empty (s : String) : ¬ strOrNone s = some "" := by
  unfold strOrNone
  by_cases h : (s == "") = true
  · rw [if_pos h]
    exact fun hcon => Option.noConfusion hcon
  · rw [if_neg h]
    intro hcon
    exact h (by rw [Option.some_inj.mp hcon]; rfl)

/-- Documents rebuilt from rows never carry empty-string optional fields. -/
theorem docOfRow_no_empty (r : VecRow) :
    ¬ (docOfRow r).metadata.project_path = some "" ∧
    ¬ (docOfRow r).metadata.conversation_id = some "" :=
  ⟨strOrNone_ne_some_empty r.project_path,
   strOrNone_ne_some_empty r.conversation_id⟩

/-! ### Claim theorems -/

/-- C1: after `ConversationStore.save(c)` succeeds, `get(c.id)` returns a
conversation equal to `c` field-for-field — message order and tool-call
payloads included, since the equality is structural equality of the whole
record. -/
theorem save_get_roundtrip (st : ConvStore) (c : Conversation) :
    getConv (saveConv st c) c.id = some c := by
  show lookupFile (upsertBy Prod.fst (c.id, c) st.files) c.id = some c
  rw [lookupFile_upsert, if_pos rfl]

/-- C2: `delete_by_conversation(cid)` removes every stored row whose
`conversation_id` equals `cid`, keeps every other row, and returns the exact
number of rows removed, for any number of matching rows. -/
theorem deleteByConversation_spec (st : VecStore) (cid : String) :
    (VecStore.deleteByConversation st cid).2 +
        (VecStore.deleteByConversation st cid).1.rows.length =
      st.rows.length
    ∧ (∀ r ∈ (VecStore.deleteByConversation st cid).1.rows,
        ¬ r.conversation_id = cid)
    ∧ (∀ r ∈ st.rows, ¬ r.conversation_id = cid →
        r ∈ (VecStore.deleteByConversation st cid).1.rows)
    ∧ (VecStore.deleteByConversation st cid).2 =
        (st.rows.filter (fun r => r.conversation_id == cid)).length := by
  refine ⟨?_, ?_, ?_, rfl⟩
  · have h := length_filter_not_add
      (fun r : VecRow => r.conversation_id == cid) st.rows
    show (st.rows.filter (fun r => r.conversation_id == cid)).length +
        (st.rows.filter (fun r => !(r.conversation_id == cid))).length =
      st.rows.length
    omega
  · intro r hr
    have := (List.mem_filter.mp hr).2
    simpa using this
  · intro r hr hne
    exact List.mem_filter.mpr ⟨hr, by simpa using hne⟩

/-- C5: `delete(id)` returns exactly whether the shard file existed, after
it `get(id)` is not-found, the index row for the id is gone (every other row
kept), and the deleted rows no longer contribute to the `get_stats` total. -/
theorem delete_conv_spec (st : ConvStore) (id : String) :
    (deleteConv st id).2 = (getConv st id).isSome
    ∧ getConv (deleteConv st id).1 id = none
    ∧ (∀ r ∈ (deleteConv st id).1.index, ¬ r.id = id)
    ∧ (∀ r ∈ st.index, ¬ r.id = id → r ∈ (deleteConv st id).1.index)
    ∧ (getStats (deleteConv st id).1).total_conversations +
          (st.index.filter (fun r => r.id == id)).length =
        (getStats st).total_conversations := by
  refine ⟨?_, ?_, ?_, ?_, ?_⟩
  · show ((st.files.find? (fun p => p.1 == id)).isSome) =
      ((st.files.find? (fun p => p.1 == id)).map (fun p => p.2)).isSome
    cases st.files.find? (fun p => p.1 == id) <;> rfl
  · show (((st.files.filter (fun p => !(p.1 == id))).find?
      (fun p => p.1 == id)).map (fun p => p.2)) = none
    rw [List.find?_eq_none.mpr]
    · rfl
    · intro p hp
      have := (List.mem_filter.mp hp).2
      simpa using this
  · intro r hr
    have := (List.mem_filter.mp hr).2
    simpa using this
  · intro r hr hne
    exact List.mem_filter.mpr ⟨hr, by simpa using hne⟩
  · have h := length_filter_not_add (fun r : IndexRow => r.id == id) st.index
    show (st.index.filter (fun r => !(r.id == id))).length +
        (st.index.filter (fun r => r.id == id)).length = st.index.length
    omega

/-- C9: `VectorStore.delete(id)` returns `True` for every id — stored or
not — so the return value never indicates whether anything was removed; the
call does remove exactly the rows with that id. -/
theorem vector_delete_returns_true (st : VecStore) (id : String) :
    (VecStore.delete st id).2 = true
    ∧ (∀ r ∈ (VecStore.delete st id).1.rows, ¬ r.id = id)
    ∧ (∀ r ∈ st.rows, ¬ r.id = id → r ∈ (VecStore.delete st id).1.rows) := by
  refine ⟨rfl, ?_, ?_⟩
  · intro r hr
    have := (List.mem_filter.mp hr).2
    simpa using this
  · intro r hr hne
    exact List.mem_filter.mpr ⟨hr, by simpa using hne⟩

/-- C10: documents coming back from `VectorStore.get` or
`VectorStore.search` never carry an empty-string `project_path` or
`conversation_id`; a document added with `None` or `""` in either field is
stored as `""` and read back as `None`. -/
theorem empty_string_normalization (st : VecStore) (d : Document)
    (emb : List ℚ) (id : String) (limit : Nat)
    (flt : Option (VecRow → Bool)) :
    (∀ doc, VecStore.get st id = some doc →
        ¬ doc.metadata.project_path = some "" ∧
        ¬ doc.metadata.conversation_id = some "")
    ∧ (∀ r ∈ VecStore.search st emb limit flt,
        ¬ r.document.metadata.project_path = some "" ∧
        ¬ r.document.metadata.conversation_id = some "")
    ∧ VecStore.get (VecStore.add st d emb) d.id =
        some (docOfRow (rowOfDoc d emb))
    ∧ ((d.metadata.project_path = some "" ∨ d.metadata.project_path = none) →
        (docOfRow (rowOfDoc d emb)).metadata.project_path = none)
    ∧ ((d.metadata.conversation_id = some "" ∨
          d.metadata.conversation_id = none) →
        (docOfRow (rowOfDoc d emb)).metadata.conversation_id = none) := by
  refine ⟨?_, ?_, ?_, ?_, ?_⟩
  · intro doc hdoc
    unfold VecStore.get at hdoc
    rcases Option.map_eq_some'.mp hdoc with ⟨r, -, rfl⟩
    exact docOfRow_no_empty r
  · intro r hr
    unfold VecStore.search at hr
    rcases List.mem_map.mp hr with ⟨row, -, rfl⟩
    exact docOfRow_no_empty row
  · have h := find?_upsertBy_self VecRow.id (rowOfDoc d emb) st.rows
    rw [show VecRow.id (rowOfDoc d emb) = d.id from rfl] at h
    show ((upsertBy VecRow.id (rowOfDoc d emb) st.rows).find?
      (fun r => r.id == d.id)).map docOfRow = some (docOfRow (rowOfDoc d emb))
    rw [h]
    rfl
  · rintro (h | h) <;>
      simp [docOfRow, rowOfDoc, strOrNone, h]
  · rintro (h | h) <;>
      simp [docOfRow, rowOfDoc, strOrNone, h]

/-- C3: `search` returns at most `limit` results, ordered by ascending
distance; the returned results are (the images of) a nearest subset of the
pool the filter selects — so a given filter is evaluated before ranking,
and every omitted pool row is at least as far as every returned one. -/
theorem search_ranking (st : VecStore) (emb : List ℚ) (limit : Nat)
    (flt : Option (VecRow → Bool)) :
    (VecStore.search st emb limit flt).length ≤ limit
    ∧ (VecStore.search st emb limit flt).Pairwise
        (fun a b => a.distance ≤ b.distance)
    ∧ (∀ φ, flt = some φ → ∀ r ∈ VecStore.search st emb limit flt,
        ∃ row ∈ st.rows, φ row = true ∧ r = mkResult emb row)
    ∧ ∃ chosen rest : List VecRow,
        (searchPool st flt).Perm (chosen ++ rest)
        ∧ VecStore.search st emb limit flt = chosen.map (mkResult emb)
        ∧ ∀ x ∈ chosen, ∀ y ∈ rest,
            sqDist emb x.vector ≤ sqDist emb y.vector := by
  have hsorted : List.Sorted (distLE emb)
      (List.insertionSort (distLE emb) (searchPool st flt)) :=
    List.sorted_insertionSort (distLE emb) (searchPool st flt)
  have hsplit : (List.insertionSort (distLE emb) (searchPool st flt)).take
        limit ++ (List.insertionSort (distLE emb) (searchPool st flt)).drop
        limit = List.insertionSort (distLE emb) (searchPool st flt) :=
    List.take_append_drop limit _
  have hpw : List.Pairwise (distLE emb)
      ((List.insertionSort (distLE emb) (searchPool st flt)).take limit ++
        (List.insertionSort (distLE emb) (searchPool st flt)).drop limit) := by
    rw [hsplit]
    exact hsorted
  refine ⟨?_, ?_, ?_, ?_⟩
  · show (((List.insertionSort (distLE emb) (searchPool st flt)).take
        limit).map (mkResult emb)).length ≤ limit
    rw [List.length_map, List.length_take]
    exact min_le_left _ _
  · show (((List.insertionSort (distLE emb) (searchPool st flt)).take
        limit).map (mkResult emb)).Pairwise (fun a b => a.distance ≤ b.distance)
    rw [List.pairwise_map]
    exact List.Pairwise.sublist (List.take_sublist limit _) hsorted
  · rintro φ rfl r hr
    rcases List.mem_map.mp hr with ⟨row, hrow, rfl⟩
    have hrow2 : row ∈ searchPool st (some φ) :=
      ((List.perm_insertionSort (distLE emb) _).mem_iff).mp
        ((List.take_sublist limit _).mem hrow)
    have hrow3 := List.mem_filter.mp hrow2
    exact ⟨row, hrow3.1, hrow3.2, rfl⟩
  · refine ⟨(List.insertionSort (distLE emb) (searchPool st flt)).take limit,
      (List.insertionSort (distLE emb) (searchPool st flt)).drop limit,
      ?_, rfl, ?_⟩
    · rw [hsplit]
      exact (List.perm_insertionSort (distLE emb) _).symm
    · exact (List.pairwise_append.mp hpw).2.2

/-- C4: every result of `search` satisfies `score = 1 / (1 + distance)`;
its distance is non-negative, hence its score lies in `(0, 1]`, and of two
results the one with strictly smaller distance has strictly greater
score. -/
theorem score_formula (st : VecStore) (emb : List ℚ) (limit : Nat)
    (flt : Option (VecRow → Bool)) (r : SearchResult)
    (hr : r ∈ VecStore.search st emb limit flt) :
    r.score = 1 / (1 + r.distance)
    ∧ 0 ≤ r.distance
    ∧ 0 < r.score ∧ r.score ≤ 1
    ∧ ∀ r2 ∈ VecStore.search st emb limit flt,
        r.distance < r2.distance → r2.score < r.score := by
  rcases List.mem_map.mp hr with ⟨row, -, rfl⟩
  have hd : 0 ≤ (mkResult emb row).distance := sqDist_nonneg emb row.vector
  refine ⟨rfl, hd, ?_, ?_, ?_⟩
  · show 0 < 1 / (1 + sqDist emb row.vector)
    positivity
  · show 1 / (1 + sqDist emb row.vector) ≤ 1
    rw [div_le_one (by linarith [sqDist_nonneg emb row.vector])]
    linarith [sqDist_nonneg emb row.vector]
  · intro r2 hr2 hlt
    rcases List.mem_map.mp hr2 with ⟨row2, -, rfl⟩
    show 1 / (1 + sqDist emb row2.vector) < 1 / (1 + sqDist emb row.vector)
    exact one_div_lt_one_div_of_lt
      (by linarith [sqDist_nonneg emb row.vector])
      (by
        have := hlt
        simpa [mkResult] using this)

/-- Closed witness for C4 at a concrete one-row store. -/
theorem score_formula_witness :
    (mkResult [0] exRow).score = 1 / (1 + (mkResult [0] exRow).distance)
    ∧ 0 ≤ (mkResult [0] exRow).distance
    ∧ 0 < (mkResult [0] exRow).score ∧ (mkResult [0] exRow).score ≤ 1
    ∧ ∀ r2 ∈ VecStore.search exVecStore [0] 1 none,
        (mkResult [0] exRow).distance < r2.distance →
          r2.score < (mkResult [0] exRow).score :=
  score_formula exVecStore [0] 1 none (mkResult [0] exRow)
    (show mkResult [0] exRow ∈ [mkResult [0] exRow] from
      List.mem_singleton.mpr rfl)

/-- C6 fails as stated for the provided source string `""`: Python's
`if source:` treats the empty string like an absent filter, so the query
returns a conversation whose source is `"claude_code"`, not `""`. -/
theorem listByDateRange_empty_source_cex :
    listByDateRange exStore (-1) 1 (some "") 10 = [exConv]
    ∧ ¬ exConv.source = "" := by
  constructor
  · rfl
  · decide

/-- C6 as amended: `list_by_date_range` returns conversations with
`created_at` within the inclusive bounds, matching a provided NON-EMPTY
source exactly (an empty source string behaves as if no source were given),
ordered by `created_at` descending, up to `limit`; and every stored
conversation matching the row predicate is returned whenever at most
`limit` rows match. -/
theorem listByDateRange_spec (st : ConvStore) (start end_ : Timestamp)
    (source : Option String) (limit : Nat) (hWF : WF st) :
    (∀ c ∈ listByDateRange st start end_ source limit,
        (start ≤ c.created_at ∧ c.created_at ≤ end_)
        ∧ ∀ s, source = some s → ¬ s = "" → c.source = s)
    ∧ (listByDateRange st start end_ source limit).Pairwise
        (fun a b => b.created_at ≤ a.created_at)
    ∧ (listByDateRange st start end_ source limit).length ≤ limit
    ∧ (∀ c, (c.id, c) ∈ st.files →
        dateRowMatch start end_ source (metaOf c) = true →
        (st.index.filter (dateRowMatch start end_ source)).length ≤ limit →
        c ∈ listByDateRange st start end_ source limit) := by
  have hsortedF : List.Sorted crGE
      (List.insertionSort crGE (st.index.filter
        (dateRowMatch start end_ source))) :=
    List.sorted_insertionSort crGE _
  have hpermF := List.perm_insertionSort crGE
    (st.index.filter (dateRowMatch start end_ source))
  refine ⟨?_, ?_, ?_, ?_⟩
  · intro c hc
    rcases List.mem_filterMap.mp hc with ⟨r, hrt, hfr⟩
    have hrF := hpermF.mem_iff.mp ((List.take_sublist limit _).mem hrt)
    have hrIdx := (List.mem_filter.mp hrF).1
    have hmatch := (List.mem_filter.mp hrF).2
    have hmeta : metaOf c = r := hWF.row_of_getConv hrIdx hfr
    have hcre : r.created_at = c.created_at := by rw [← hmeta]; rfl
    have hsrceq : r.source = c.source := by rw [← hmeta]; rfl
    unfold dateRowMatch at hmatch
    simp only [Bool.and_eq_true, decide_eq_true_eq] at hmatch
    obtain ⟨⟨h1, h2⟩, hsrc⟩ := hmatch
    refine ⟨⟨?_, ?_⟩, ?_⟩
    · rw [← hcre]; exact h1
    · rw [← hcre]; exact h2
    · rintro s rfl hne
      simp only [srcMatch] at hsrc
      rw [if_neg (by simpa using hne)] at hsrc
      rw [← hsrceq]
      exact beq_iff_eq.mp hsrc
  · refine pairwise_filterMap_of_mem _ _ ?_
      (List.Pairwise.sublist (List.take_sublist limit _) hsortedF)
    intro a ha b hb x y hax hby hle
    have haIdx := (List.mem_filter.mp
      (hpermF.mem_iff.mp ((List.take_sublist limit _).mem ha))).1
    have hbIdx := (List.mem_filter.mp
      (hpermF.mem_iff.mp ((List.take_sublist limit _).mem hb))).1
    have hxa : metaOf x = a := hWF.row_of_getConv haIdx hax
    have hyb : metaOf y = b := hWF.row_of_getConv hbIdx hby
    show y.created_at ≤ x.created_at
    have h1 : a.created_at = x.created_at := by rw [← hxa]; rfl
    have h2 : b.created_at = y.created_at := by rw [← hyb]; rfl
    rw [← h1, ← h2]
    exact hle
  · refine le_trans (List.length_filterMap_le _ _) ?_
    rw [List.length_take]
    exact min_le_left _ _
  · intro c hcf hcm hlen
    have hF : metaOf c ∈ st.index.filter (dateRowMatch start end_ source) :=
      List.mem_filter.mpr ⟨hWF.metaOf_mem_index hcf, hcm⟩
    have htake : (List.insertionSort crGE (st.index.filter
        (dateRowMatch start end_ source))).take limit =
        List.insertionSort crGE (st.index.filter
          (dateRowMatch start end_ source)) :=
      List.take_of_length_le (by rw [hpermF.length_eq]; exact hlen)
    refine List.mem_filterMap.mpr ⟨metaOf c, ?_, ?_⟩
    · rw [htake]
      exact hpermF.mem_iff.mpr hF
    · exact hWF.getConv_of_mem_files hcf

/-- Closed witness for the amended C6 at the concrete store. -/
theorem listByDateRange_spec_witness :
    (∀ c ∈ listByDateRange exStore (-1) 1 none 10,
        (-1 ≤ c.created_at ∧ c.created_at ≤ 1)
        ∧ ∀ s, (none : Option String) = some s → ¬ s = "" → c.source = s)
    ∧ (listByDateRange exStore (-1) 1 none 10).Pairwise
        (fun a b => b.created_at ≤ a.created_at)
    ∧ (listByDateRange exStore (-1) 1 none 10).length ≤ 10
    ∧ (∀ c, (c.id, c) ∈ exStore.files →
        dateRowMatch (-1) 1 none (metaOf c) = true →
        (exStore.index.filter (dateRowMatch (-1) 1 none)).length ≤ 10 →
        c ∈ listByDateRange exStore (-1) 1 none 10) :=
  listByDateRange_spec exStore (-1) 1 none 10 (by decide)

/-- C7: with every record's file present (well-formed store) and more than
`2k` stored conversations, the first two `list_all` pages of size `k` carry
disjoint id sets and are each in `updated_at`-descending order; together
they are exactly `2k` stored conversations, and every conversation they
leave out has `updated_at` at most that of every returned one — i.e. they
cover the `2k` most recently updated conversations. -/
theorem listAll_pagination (st : ConvStore) (k : Nat) (hWF : WF st)
    (hn : 2 * k < st.index.length) :
    (∀ c1 ∈ listAll st k 0, ∀ c2 ∈ listAll st k k, ¬ c1.id = c2.id)
    ∧ (listAll st k 0).Pairwise (fun a b => b.updated_at ≤ a.updated_at)
    ∧ (listAll st k k).Pairwise (fun a b => b.updated_at ≤ a.updated_at)
    ∧ (listAll st k 0 ++ listAll st k k).length = 2 * k
    ∧ ∃ rest : List Conversation,
        (st.files.map Prod.snd).Perm
          ((listAll st k 0 ++ listAll st k k) ++ rest)
        ∧ ∀ c ∈ listAll st k 0 ++ listAll st k k, ∀ c2 ∈ rest,
            c2.updated_at ≤ c.updated_at := by
  set f : IndexRow → Option Conversation := fun r => getConv st r.id with hf
  set srt : List IndexRow := List.insertionSort updGE st.index with hsrt
  have hperm : srt.Perm st.index := List.perm_insertionSort updGE st.index
  have hsorted : List.Sorted updGE srt :=
    List.sorted_insertionSort updGE st.index
  have hmem_idx : ∀ r ∈ srt, r ∈ st.index := fun r hr => hperm.mem_iff.mp hr
  have hmeta_of : ∀ r ∈ srt, ∀ c, f r = some c → metaOf c = r :=
    fun r hr c hc => hWF.row_of_getConv (hmem_idx r hr) hc
  have hid_of : ∀ (r : IndexRow) (c : Conversation), f r = some c →
      c.id = r.id :=
    fun r c hc => hWF.getConv_id hc
  have hsome : ∀ r ∈ srt, (f r).isSome := by
    intro r hr
    rcases hWF.hydrate_row (hmem_idx r hr) with ⟨c, hc, -⟩
    show (getConv st r.id).isSome = true
    rw [hc]
    rfl
  have e1 : listAll st k 0 = (srt.take k).filterMap f := rfl
  have e2 : listAll st k k = ((srt.drop k).take k).filterMap f := rfl
  have happ : listAll st k 0 ++ listAll st k k =
      (srt.take (k + k)).filterMap f := by
    rw [e1, e2, ← List.filterMap_append, List.take_add]
  have hsub1 : (srt.take k).Sublist srt := List.take_sublist k srt
  have hsub2 : ((srt.drop k).take k).Sublist srt :=
    ((List.take_sublist k (srt.drop k)).trans (List.drop_sublist k srt))
  have hsub12 : (srt.take (k + k)).Sublist srt := List.take_sublist (k + k) srt
  have hcorr : ∀ l : List IndexRow, l.Sublist srt →
      ∀ a ∈ l, ∀ b ∈ l, ∀ x y, f a = some x → f b = some y →
        updGE a b → y.updated_at ≤ x.updated_at := by
    intro l hl a ha b hb x y hax hby hab
    have hxa : metaOf x = a := hmeta_of a (hl.mem ha) x hax
    have hyb : metaOf y = b := hmeta_of b (hl.mem hb) y hby
    have h1 : a.updated_at = x.updated_at := by rw [← hxa]; rfl
    have h2 : b.updated_at = y.updated_at := by rw [← hyb]; rfl
    rw [← h1, ← h2]
    exact hab
  refine ⟨?_, ?_, ?_, ?_, ?_⟩
  · intro c1 hc1 c2 hc2
    rw [e1] at hc1
    rw [e2] at hc2
    rcases List.mem_filterMap.mp hc1 with ⟨r1, hr1, hfr1⟩
    rcases List.mem_filterMap.mp hc2 with ⟨r2, hr2, hfr2⟩
    have hids : ((srt.take k).map IndexRow.id ++
        (srt.drop k).map IndexRow.id).Nodup := by
      rw [← List.map_append, List.take_append_drop]
      exact (hperm.map IndexRow.id).nodup_iff.mpr hWF.index_ids_nodup
    have hdisj := List.disjoint_of_nodup_append hids
    have hm1 : r1.id ∈ (srt.take k).map IndexRow.id :=
      List.mem_map_of_mem IndexRow.id hr1
    have hm2 : r2.id ∈ (srt.drop k).map IndexRow.id :=
      List.mem_map_of_mem IndexRow.id ((List.take_sublist k _).mem hr2)
    rw [hid_of r1 c1 hfr1, hid_of r2 c2 hfr2]
    intro heq
    exact hdisj hm1 (heq ▸ hm2)
  · rw [e1]
    exact pairwise_filterMap_of_mem f _ (hcorr _ hsub1)
      (List.Pairwise.sublist hsub1 hsorted)
  · rw [e2]
    exact pairwise_filterMap_of_mem f _ (hcorr _ hsub2)
      (List.Pairwise.sublist hsub2 hsorted)
  · rw [happ, length_filterMap_of_isSome f _
        (fun r hr => hsome r (hsub12.mem hr)),
      List.length_take, min_eq_left (by rw [hperm.length_eq]; omega)]
    omega
  · refine ⟨(srt.drop (k + k)).filterMap f, ?_, ?_⟩
    · have hwhole : (listAll st k 0 ++ listAll st k k) ++
          (srt.drop (k + k)).filterMap f = srt.filterMap f := by
        rw [happ, ← List.filterMap_append, List.take_append_drop]
      rw [hwhole]
      have hstep1 : (srt.filterMap f).Perm (st.index.filterMap f) :=
        hperm.filterMap f
      have hstep2 : (st.index.filterMap f).Perm
          ((st.files.map (fun p => metaOf p.2)).filterMap f) :=
        hWF.2.2.filterMap f
      have hstep3 : (st.files.map (fun p => metaOf p.2)).filterMap f =
          st.files.map Prod.snd := by
        rw [List.filterMap_map]
        refine filterMap_congr_some _ _ _ ?_
        intro p hp
        show getConv st (metaOf p.2).id = some p.2
        have hpid : p.2.id = p.1 := hWF.2.1 p hp
        show getConv st p.2.id = some p.2
        rw [hpid]
        exact hWF.getConv_of_mem_files (by rw [Prod.mk.eta]; exact hp)
      exact (((hstep1.trans hstep2).trans (hstep3 ▸ List.Perm.refl _)).symm)
    · intro c hc c2 hc2
      rw [happ] at hc
      rcases List.mem_filterMap.mp hc with ⟨r, hr, hfr⟩
      rcases List.mem_filterMap.mp hc2 with ⟨r2, hr2, hfr2⟩
      have hcross : ∀ a ∈ srt.take (k + k), ∀ b ∈ srt.drop (k + k),
          updGE a b := by
        have := hsorted
        rw [← List.take_append_drop (k + k) srt] at this
        exact (List.pairwise_append.mp this).2.2
      have hab := hcross r hr r2 hr2
      have hxa : metaOf c = r := hmeta_of r (hsub12.mem hr) c hfr
      have hyb : metaOf c2 = r2 :=
        hmeta_of r2 (List.drop_sublist (k + k) srt |>.mem hr2) c2 hfr2
      have h1 : r.updated_at = c.updated_at := by rw [← hxa]; rfl
      have h2 : r2.updated_at = c2.updated_at := by rw [← hyb]; rfl
      rw [← h1, ← h2]
      exact hab

/-- Closed witness for C7: three stored conversations, pages of size 1. -/
theorem listAll_pagination_witness :
    (∀ c1 ∈ listAll pagStore 1 0, ∀ c2 ∈ listAll pagStore 1 1,
        ¬ c1.id = c2.id)
    ∧ (listAll pagStore 1 0).Pairwise (fun a b => b.updated_at ≤ a.updated_at)
    ∧ (listAll pagStore 1 1).Pairwise (fun a b => b.updated_at ≤ a.updated_at)
    ∧ (listAll pagStore 1 0 ++ listAll pagStore 1 1).length = 2 * 1
    ∧ ∃ rest : List Conversation,
        (pagStore.files.map Prod.snd).Perm
          ((listAll pagStore 1 0 ++ listAll pagStore 1 1) ++ rest)
        ∧ ∀ c ∈ listAll pagStore 1 0 ++ listAll pagStore 1 1, ∀ c2 ∈ rest,
            c2.updated_at ≤ c.updated_at :=
  listAll_pagination pagStore 1 (by decide) (by decide)

/-- When the conversation's file exists, `mark_indexed` is the index UPDATE
followed by a full save of the record with `indexed_at` set. -/
theorem markIndexed_found {st : ConvStore} {id : String} (t : Timestamp)
    {c : Conversation} (hc : getConv st id = some c) :
    markIndexed st id t =
      saveConv (updateIndexedRow st id t) { c with indexed_at := some t } := by
  unfold markIndexed
  have h1 : getConv (updateIndexedRow st id t) id = some c := hc
  rw [h1]

/-- C8: under a well-formed store, `mark_indexed(id, t)` sets `indexed_at`
to `t` in both the content file and the index row while leaving every other
field, every other file and every other row unchanged; when no conversation
with the id exists the call changes nothing. -/
theorem markIndexed_spec (st : ConvStore) (id : String) (t : Timestamp)
    (hWF : WF st) :
    (∀ c, getConv st id = some c →
        getConv (markIndexed st id t) id =
            some { c with indexed_at := some t }
        ∧ (∀ k, ¬ k = id → getConv (markIndexed st id t) k = getConv st k)
        ∧ metaOf { c with indexed_at := some t } ∈ (markIndexed st id t).index
        ∧ (∀ r ∈ (markIndexed st id t).index, r.id = id →
            r = metaOf { c with indexed_at := some t })
        ∧ (∀ r ∈ (markIndexed st id t).index, ¬ r.id = id → r ∈ st.index))
    ∧ (getConv st id = none → markIndexed st id t = st) := by
  constructor
  · intro c hc
    have hcid : c.id = id := hWF.getConv_id hc
    have hform := markIndexed_found t hc
    refine ⟨?_, ?_, ?_, ?_, ?_⟩
    · rw [hform]
      have h2 := lookupFile_upsert st.files { c with indexed_at := some t } id
      rw [if_pos (show ({ c with indexed_at := some t } : Conversation).id = id
        from hcid)] at h2
      exact h2
    · intro k hk
      rw [hform]
      have h2 := lookupFile_upsert st.files { c with indexed_at := some t } k
      rw [if_neg (show ¬ ({ c with indexed_at := some t } : Conversation).id = k
        from fun h => hk (h ▸ hcid))] at h2
      exact h2
    · rw [hform]
      exact self_mem_upsertBy IndexRow.id _ _
    · intro r hr hrid
      rw [hform] at hr
      rcases mem_upsertBy IndexRow.id _ _ hr with heq | ⟨-, hne⟩
      · exact heq
      · exfalso
        have : (metaOf { c with indexed_at := some t }).id = id := hcid
        rw [hrid, this] at hne
        simp at hne
    · intro r hr hrid
      rw [hform] at hr
      rcases mem_upsertBy IndexRow.id _ _ hr with heq | ⟨hmem, -⟩
      · exfalso
        apply hrid
        rw [heq]
        exact hcid
      · rcases List.mem_map.mp hmem with ⟨r0, hr0, hfr0⟩
        by_cases h0 : (r0.id == id) = true
        · exfalso
          apply hrid
          rw [← hfr0, if_pos h0]
          exact beq_iff_eq.mp h0
        · rw [← hfr0, if_neg h0]
          exact hr0
  · intro hnone
    unfold markIndexed
    have h1 : getConv (updateIndexedRow st id t) id = none := hnone
    rw [h1]
    have hall : ∀ r ∈ st.index,
        (if r.id == id then { r with indexed_at := some t } else r) = r := by
      intro r hr
      refine if_neg ?_
      intro hrid
      rcases hWF.hydrate_row hr with ⟨c, hcg, -⟩
      rw [beq_iff_eq.mp hrid] at hcg
      rw [hnone] at hcg
      exact Option.noConfusion hcg
    have hmapid : st.index.map
        (fun r => if r.id == id then { r with indexed_at := some t } else r) =
        st.index := by
      rw [List.map_congr_left hall]
      simp
    unfold updateIndexedRow
    rw [hmapid]

/-- Closed witness for C8 at the concrete one-conversation store. -/
theorem markIndexed_spec_witness :
    (∀ c, getConv exStore "ab" = some c →
        getConv (markIndexed exStore "ab" 5) "ab" =
            some { c with indexed_at := some 5 }
        ∧ (∀ k, ¬ k = "ab" →
            getConv (markIndexed exStore "ab" 5) k = getConv exStore k)
        ∧ metaOf { c with indexed_at := some 5 } ∈
            (markIndexed exStore "ab" 5).index
        ∧ (∀ r ∈ (markIndexed exStore "ab" 5).index, r.id = "ab" →
            r = metaOf { c with indexed_at := some 5 })
        ∧ (∀ r ∈ (markIndexed exStore "ab" 5).index, ¬ r.id = "ab" →
            r ∈ exStore.index))
    ∧ (getConv exStore "ab" = none → markIndexed exStore "ab" 5 = exStore) :=
  markIndexed_spec exStore "ab" 5 (by decide)

end RecallApp
